import Mathlib

/-!
Verification of the votegral tally core against its specification.

The elliptic-curve group used by the code (the prime-order subgroup of
Ed25519, order L = 2^252 + 27742317777372353535851937790883648493) is a
cyclic group of prime order L.  We embed it in exponent form: a point is
represented by its discrete logarithm to the standard generator, so the
point type and the scalar field are both `ZMod L`; point addition is `+`,
scalar multiplication of a point is `*`, the generator is `1` and the
identity point is `0`.  This is an exact algebraic model of a cyclic group
of order L; canonical byte encodings are injective on points, so the
code's encoding-keyed maps are modelled by point equality.

Fiat-Shamir proofs (kyber's proof.HashProve / proof.HashVerify, see spec
section 4.2) are modelled symbolically: a produced proof records the
public points the prover committed to and the witness scalars it used,
and verification of the proof against a public-point map succeeds exactly
when the map agrees with the recorded points and every linear relation of
the predicate holds for the recorded witnesses.  This idealisation is
complete (honest proofs always verify) and statement-binding, which is
the level at which the claims below speak about proofs.
-/

namespace Votegral

/-- Order of the prime-order Ed25519 subgroup used by the suite. -/
abbrev groupOrder : Nat :=
  7237005577332262213973186563042994240857116359379907606001950938285454250989

/-- Points of the curve subgroup, in exponent (discrete-log) form. -/
abbrev Point : Type := ZMod groupOrder

/-- Scalars of the suite. -/
abbrev Scalar : Type := ZMod groupOrder

/-- The standard base point `G` (suite.Point().Base()); exponent 1. -/
def basePoint : Point := 1

/-- The identity point (suite.Point().Null()); exponent 0. -/
def nullPoint : Point := 0

/-- ElGamalCiphertext from pkg/crypto/suite.go: components C1 = x*G and
C2 = M + x*Pk. -/
structure ElGamalCiphertext where
  C1 : Point
  C2 : Point
deriving DecidableEq, Repr

/-- ElGamalEncryptPoint from pkg/crypto/suite.go.  The Go code picks the
ephemeral scalar `x` from the random stream; the embedding takes it as an
explicit argument.  Returns the ciphertext, the shared secret X = x*Pk
and x itself. -/
def ElGamalEncryptPoint (Pk M : Point) (x : Scalar) :
    ElGamalCiphertext × Point × Scalar :=
  ({ C1 := x * basePoint, C2 := M + x * Pk }, x * Pk, x)

/-- DKGShare from the DKG source file: a private share and its public
counterpart. -/
structure DKGShare where
  Sk : Scalar
  Pk : Point
deriving DecidableEq, Repr

/-- Well-formedness established by NewDKG: each share's public key is
Sk*G.  NewDKG draws Sk at random and sets Pk := Sk*G. -/
def DKGShare.WellFormed (s : DKGShare) : Prop :=
  s.Pk = s.Sk * basePoint

instance (s : DKGShare) : Decidable s.WellFormed := by
  unfold DKGShare.WellFormed
  infer_instance

/-- Sum of the share public keys; NewDKG returns it as the collective
election public key. -/
def dkgCollectivePk (shares : List DKGShare) : Point :=
  (shares.map (fun s => s.Pk)).sum

/-! ## Σ-protocol predicate model (kyber proof package, spec section 4.2)

A `Rep(P, s1, B1, s2, B2, ...)` predicate asserts `P = s1*B1 + s2*B2 + ...`;
`And` and `Or` combine predicates.  A proof produced by `HashProve`
records the predicate instantiated with the prover's public points and
witness scalars; `HashVerify` of that proof succeeds exactly when those
relations hold (with, for an `Or`, at least one branch holding). -/

/-- Predicate tree with the prover's points and witnesses substituted in. -/
inductive PredModel where
  | rep (target : Point) (terms : List (Scalar × Point))
  | and (l r : PredModel)
  | or (l r : PredModel)
deriving DecidableEq, Repr

/-- Whether the recorded linear relations hold. -/
def PredModel.holds : PredModel → Bool
  | .rep target terms =>
      decide (target = (terms.map (fun t => t.1 * t.2)).sum)
  | .and l r => l.holds && r.holds
  | .or l r => l.holds || r.holds

/-- ElGamalProof from pkg/crypto/proof_sigma.go: the predicate together
with the point map it was proven over (the proof bytes are modelled by
the instantiated predicate itself). -/
structure ElGamalProof where
  pred : PredModel
deriving DecidableEq, Repr

/-- ElGamalProof.Verify from pkg/crypto/proof_sigma.go: re-runs the
verifier on the stored predicate and point map. -/
def ElGamalProof.Verify (p : ElGamalProof) : Except String Unit :=
  if p.pred.holds then .ok () else .error "ZKP Verification Failed"

/-- Decrypt from pkg/crypto/suite.go: M = C2 - sk*C1 together with the
regenerated shared secret X = sk*C1.  (The Go nil checks cannot fire in
the value model.) -/
def ElGamalCiphertext.Decrypt (ct : ElGamalCiphertext) (sk : Scalar) :
    Point × Point :=
  (ct.C2 - sk * ct.C1, sk * ct.C1)

/-- DecryptWithProof from pkg/crypto/suite.go: decrypt and emit the
proof of And(Rep(X, sk, C1), Rep(Pk, sk, G)). -/
def ElGamalCiphertext.DecryptWithProof (ct : ElGamalCiphertext)
    (Pk : Point) (sk : Scalar) : Point × ElGamalProof :=
  let M := (ct.Decrypt sk).1
  let X := (ct.Decrypt sk).2
  (M, ⟨.and (.rep X [(sk, ct.C1)]) (.rep Pk [(sk, basePoint)])⟩)

/-- Loop body of MultiKeyDecryptWithProof: each share consumes the
current C2, producing the next C2 and a partial-decryption proof. -/
def multiKeyDecryptLoop (c1 : Point) :
    Point → List DKGShare → Point × List ElGamalProof
  | c2, [] => (c2, [])
  | c2, s :: rest =>
      let step := ElGamalCiphertext.DecryptWithProof ⟨c1, c2⟩ s.Pk s.Sk
      let tail := multiKeyDecryptLoop c1 step.1 rest
      (tail.1, step.2 :: tail.2)

/-- MultiKeyDecryptWithProof from pkg/crypto/suite.go: iterate the shares
over a fresh ciphertext struct whose C2 is threaded through the partial
decryptions; the final C2 is the plaintext. -/
def ElGamalCiphertext.MultiKeyDecryptWithProof (ct : ElGamalCiphertext)
    (shares : List DKGShare) : Point × List ElGamalProof :=
  multiKeyDecryptLoop ct.C1 ct.C2 shares

/-! ## Concurrency harness (pkg/concurrency/concurrency.go)

Both primitives return at once on the degenerate inputs below and
otherwise apply the worker to every item; the parallel path (taken when
cores > 1 and at least 101 items) computes the same worker applications
with order-preserving results, so the sequential semantics is the value
semantics of both paths. -/

/-- Threshold needed to be eligible for running in parallel. -/
def minItemsForParallel : Nat := 101

/-- Index-threading loop of ForEach. -/
def forEachLoop {α : Type} (workerFunc : Nat → α → Except String Unit) :
    Nat → List α → Except String Unit
  | _, [] => .ok ()
  | i, item :: rest => do
      workerFunc i item
      forEachLoop workerFunc (i + 1) rest

/-- ForEach from pkg/concurrency/concurrency.go: nil on an empty slice,
otherwise run the worker on every item, failing fast on the first
error. -/
def ForEach {α : Type} (_cores : Nat) (items : List α)
    (workerFunc : Nat → α → Except String Unit) : Except String Unit :=
  if items.length = 0 then .ok ()
  else forEachLoop workerFunc 0 items

/-- Result-collecting loop of Map: apply the worker to every item in
order, failing fast on the first error. -/
def mapLoop {α β : Type} (workerFunc : α → Except String β) :
    List α → Except String (List β)
  | [] => .ok []
  | a :: rest => do
      let b ← workerFunc a
      let tail ← mapLoop workerFunc rest
      .ok (b :: tail)

/-- Map from pkg/concurrency/concurrency.go: an empty slice is an error;
otherwise apply the worker to every item, failing fast and preserving
order. -/
def Map {α β : Type} (_cores : Nat) (items : List α)
    (workerFunc : α → Except String β) : Except String (List β) :=
  if items.length = 0 then .error "no items to map"
  else mapLoop workerFunc items

/-! ## Distributed deterministic tag protocol (pkg/crypto/ddt.go) -/

/-- Tallier from pkg/crypto/ddt.go: long-term share k_i, its public key
K_i, and the per-run fresh secret s_i.  NewTallier draws the fresh
secret at random and sets PublicKey := SecretShare * G. -/
structure Tallier where
  ID : Nat
  SecretShare : Scalar
  PublicKey : Point
  FreshSecret : Scalar
deriving DecidableEq, Repr

/-- Well-formedness established by NewTallier: the stored public key is
the share times the base point. -/
def Tallier.WellFormed (t : Tallier) : Prop :=
  t.PublicKey = t.SecretShare * basePoint

instance (t : Tallier) : Decidable t.WellFormed := by
  unfold Tallier.WellFormed
  infer_instance

/-- NewTallier from pkg/crypto/ddt.go, with the randomly picked fresh
secret taken as an argument. -/
def NewTallier (id : Nat) (secretShare freshSecret : Scalar) : Tallier :=
  { ID := id
    SecretShare := secretShare
    PublicKey := secretShare * basePoint
    FreshSecret := freshSecret }

/-- Round-1 proof of knowledge: the Rep("S","s","B") predicate with the
prover's points and witness recorded (ZKPProof carries its Public map). -/
structure Round1Proof where
  S : Point
  B : Point
  s : Scalar
deriving DecidableEq, Repr

/-- HashVerify of a Round-1 proof against the map stored in the proof:
the single linear relation S = s*B. -/
def Round1Proof.verifies (p : Round1Proof) : Bool :=
  decide (p.S = p.s * p.B)

/-- Round1Bundle from pkg/crypto/ddt.go. -/
structure Round1Bundle where
  TallierID : Nat
  PublicCommitment : Point
  ProofOfKnowledge : Round1Proof
deriving DecidableEq, Repr

/-- PerformRound1 from pkg/crypto/ddt.go: publish S_i = s_i*G and prove
knowledge of s_i. -/
def Tallier.PerformRound1 (t : Tallier) : Round1Bundle :=
  let publicCommitment := t.FreshSecret * basePoint
  { TallierID := t.ID
    PublicCommitment := publicCommitment
    ProofOfKnowledge := { S := publicCommitment, B := basePoint, s := t.FreshSecret } }

/-- Public points of the Round-2 combined predicate, in the order of the
`public` map built by proveRound2 and verifySingleRound2Proof. -/
structure Round2Public where
  B : Point
  S : Point
  K : Point
  C1_old : Point
  C2_old : Point
  C1_new : Point
  C2_new : Point
  C1_old_neg : Point
deriving DecidableEq, Repr

/-- Round-2 combined proof: the public map the prover committed to plus
its witness scalars s, k and sk. -/
structure Round2Proof where
  pub : Round2Public
  s : Scalar
  k : Scalar
  sk : Scalar
deriving DecidableEq, Repr

/-- HashVerify of a Round-2 combined proof against a verifier-supplied
public map: the challenge hash binds the proof to the points it was made
over, so verification succeeds exactly when the verifier's map equals
the prover's and the four Rep relations of the And predicate hold. -/
def Round2Proof.verifiesAgainst (p : Round2Proof) (pub : Round2Public) : Bool :=
  decide (pub = p.pub) &&
  decide (p.pub.S = p.s * p.pub.B) &&
  decide (p.pub.K = p.k * p.pub.B) &&
  decide (p.pub.C1_new = p.s * p.pub.C1_old) &&
  decide (p.pub.C2_new = p.s * p.pub.C2_old + p.sk * p.pub.C1_old_neg)

/-- PartialTagBundle from pkg/crypto/ddt.go. -/
structure PartialTagBundle where
  TallierID : Nat
  UpdatedC1s : List Point
  UpdatedC2s : List Point
  RemaskingProofs : List Round2Proof
deriving DecidableEq, Repr

/-- DeterministicTagProof from pkg/crypto/ddt.go. -/
structure DeterministicTagProof where
  Round1Bundles : List Round1Bundle
  Round2Bundles : List PartialTagBundle
deriving DecidableEq, Repr

/-- remaskCiphertext from pkg/crypto/ddt.go: newC1 = s*C1,
newC2 = s*(C2 - k*C1). -/
def Tallier.remaskCiphertext (t : Tallier) (C1 C2 : Point) : Point × Point :=
  let newC1 := t.FreshSecret * C1
  let partialDec := t.SecretShare * C1
  let c2Term := C2 - partialDec
  let newC2 := t.FreshSecret * c2Term
  (newC1, newC2)

/-- proveRound2 from pkg/crypto/ddt.go: the combined ZKP with secrets s,
k and sk = s*k over the public map built there. -/
def Tallier.proveRound2 (t : Tallier)
    (publicCommitment C1_old C2_old C1_new C2_new : Point) : Round2Proof :=
  { pub :=
      { B := basePoint
        S := publicCommitment
        K := t.PublicKey
        C1_old := C1_old
        C2_old := C2_old
        C1_new := C1_new
        C2_new := C2_new
        C1_old_neg := -C1_old }
    s := t.FreshSecret
    k := t.SecretShare
    sk := t.FreshSecret * t.SecretShare }

/-- Per-ciphertext worker of PerformRound2 (workerFunc in the Go code):
remask and prove, giving a round2Result. -/
def Tallier.round2Worker (t : Tallier) (c1 c2 : Point) :
    Point × Point × Round2Proof :=
  let masked := t.remaskCiphertext c1 c2
  (masked.1, masked.2,
    t.proveRound2 (t.FreshSecret * basePoint) c1 c2 masked.1 masked.2)

/-- PerformRound2 from pkg/crypto/ddt.go: length check, then the
concurrency.Map over all ciphertext pairs, then repackaging of the
order-preserved results into a PartialTagBundle. -/
def Tallier.PerformRound2 (t : Tallier) (cores : Nat)
    (prevC1s prevC2s : List Point) : Except String PartialTagBundle :=
  if prevC1s.length ≠ prevC2s.length then
    .error "input C1 and C2 slices must have the same length"
  else do
    let results ← Map cores (prevC1s.zip prevC2s)
      (fun item => .ok (t.round2Worker item.1 item.2))
    .ok { TallierID := t.ID
          UpdatedC1s := results.map (fun r => r.1)
          UpdatedC2s := results.map (fun r => r.2.1)
          RemaskingProofs := results.map (fun r => r.2.2) }

/-- One tallier's blinding application inside performRound1Chain: add its
public commitment to every C2. -/
def round1Step (commitment : Point) (c2s : List Point) : List Point :=
  c2s.map (fun c2 => c2 + commitment)

/-- performRound1Chain from pkg/crypto/ddt.go: each tallier in order
publishes its bundle and adds its blinding commitment to all C2
components.  (The initial copy via Point().Set is identity on values.) -/
def performRound1Chain (initialC2s : List Point) :
    List Tallier → List Point × List Round1Bundle
  | [] => (initialC2s, [])
  | t :: rest =>
      let bundle := t.PerformRound1
      let tail := performRound1Chain (round1Step bundle.PublicCommitment initialC2s) rest
      (tail.1, bundle :: tail.2)

/-- performRound2Chain from pkg/crypto/ddt.go: each tallier in order
transforms the current state; its output becomes the next input. -/
def performRound2Chain (cores : Nat) (c1s c2s : List Point) :
    List Tallier → Except String (List Point × List Point × List PartialTagBundle)
  | [] => .ok (c1s, c2s, [])
  | t :: rest => do
      let bundle ← t.PerformRound2 cores c1s c2s
      let tail ← performRound2Chain cores bundle.UpdatedC1s bundle.UpdatedC2s rest
      .ok (tail.1, tail.2.1, bundle :: tail.2.2)

/-- GenerateDeterministicTags from pkg/crypto/ddt.go: empty input short
circuit, Round 1, then Round 2; the final C2s are the tags. -/
def GenerateDeterministicTags (cores : Nat) (initialC1s initialC2s : List Point)
    (talliers : List Tallier) :
    Except String (List Point × DeterministicTagProof) :=
  if initialC1s.length = 0 then .ok ([], ⟨[], []⟩)
  else do
    let round1 := performRound1Chain initialC2s talliers
    let round2 ← performRound2Chain cores initialC1s round1.1 talliers
    .ok (round2.2.1, ⟨round1.2, round2.2.2⟩)

/-- VerifyRound1Bundle from pkg/crypto/ddt.go: re-run the Rep("S","s","B")
verifier on the proof (against the Public map stored in the proof). -/
def VerifyRound1Bundle (b : Round1Bundle) : Except String Unit :=
  if b.ProofOfKnowledge.verifies then .ok ()
  else .error "fresh secret proof failed"

/-- First loop of VerifyDeterministicTagProof: verify every Round-1
bundle's proof of knowledge. -/
def verifyRound1Bundles : List Round1Bundle → Except String Unit
  | [] => .ok ()
  | b :: rest =>
      match VerifyRound1Bundle b with
      | .ok _ => verifyRound1Bundles rest
      | .error _ => .error "verification of Round 1 bundle failed"

/-- verifySingleRound2Proof from pkg/crypto/ddt.go: rebuild the public
map from the verifier's own state at this index and check the combined
proof against it.  Out-of-range indexing is a Go panic, modelled as an
error. -/
def verifySingleRound2Proof (prevC1s prevC2s : List Point)
    (publicCommitment tallierPublicKey : Point) (bundle : PartialTagBundle)
    (index : Nat) : Except String Unit :=
  match prevC1s.get? index, prevC2s.get? index, bundle.UpdatedC1s.get? index,
      bundle.UpdatedC2s.get? index, bundle.RemaskingProofs.get? index with
  | some c1old, some c2old, some c1new, some c2new, some prf =>
      let pub : Round2Public :=
        { B := basePoint
          S := publicCommitment
          K := tallierPublicKey
          C1_old := c1old
          C2_old := c2old
          C1_new := c1new
          C2_new := c2new
          C1_old_neg := -c1old }
      if prf.verifiesAgainst pub then .ok () else .error "combined proof failed"
  | _, _, _, _, _ => .error "panic: index out of range"

/-- VerifyRound2Bundle from pkg/crypto/ddt.go: count check, then verify
every per-ciphertext proof via the concurrency harness. -/
def VerifyRound2Bundle (cores : Nat) (prevC1s prevC2s : List Point)
    (publicCommitment tallierPublicKey : Point) (bundle : PartialTagBundle) :
    Except String Unit :=
  let numProofs := bundle.RemaskingProofs.length
  if prevC1s.length ≠ numProofs ∨ prevC2s.length ≠ numProofs then
    .error "mismatch in ciphertext and proof counts"
  else
    ForEach cores bundle.RemaskingProofs (fun index _ =>
      verifySingleRound2Proof prevC1s prevC2s publicCommitment
        tallierPublicKey bundle index)

/-- Round-2 loop of VerifyDeterministicTagProof: for each bundle, fetch
the Round-1 bundle and tallier at the same index (a missing one is a Go
panic), check the tallier IDs match, verify the bundle against the
current replayed state, then advance the state to the bundle's output. -/
def verifyRound2Walk (cores : Nat) (talliers : List Tallier)
    (r1bundles : List Round1Bundle) (idx : Nat) (curC1s curC2s : List Point) :
    List PartialTagBundle → Except String Unit
  | [] => .ok ()
  | bundle :: rest =>
      match r1bundles.get? idx with
      | none => .error "panic: index out of range"
      | some r1b =>
          if r1b.TallierID ≠ bundle.TallierID then
            .error "mismatched tallier IDs between round 1 and 2 bundles"
          else
            match talliers.get? idx with
            | none => .error "panic: index out of range"
            | some t => do
                VerifyRound2Bundle cores curC1s curC2s r1b.PublicCommitment
                  t.PublicKey bundle
                verifyRound2Walk cores talliers r1bundles (idx + 1)
                  bundle.UpdatedC1s bundle.UpdatedC2s rest

/-- VerifyDeterministicTagProof from pkg/crypto/ddt.go: verify all
Round-1 proofs, re-derive the Round-1 final C2s by summing the initial
C2s with every published commitment, then replay and verify each Round-2
bundle against the previous state. -/
def VerifyDeterministicTagProof (cores : Nat)
    (initialC1s initialC2s : List Point) (talliers : List Tallier)
    (fullProof : DeterministicTagProof) : Except String Unit := do
  verifyRound1Bundles fullProof.Round1Bundles
  let r1FinalC2s := fullProof.Round1Bundles.foldl
    (fun cur b => round1Step b.PublicCommitment cur) initialC2s
  verifyRound2Walk cores talliers fullProof.Round1Bundles 0 initialC1s
    r1FinalC2s fullProof.Round2Bundles

/-! ## Vote decryption and final count (tally orchestrator source) -/

/-- Inner loop of decryptVotes over the partial-decryption proofs: any
failing proof aborts with the decryption-proof error. -/
def verifyDecProofs : List ElGamalProof → Except String Unit
  | [] => .ok ()
  | p :: rest =>
      match p.Verify with
      | .ok _ => verifyDecProofs rest
      | .error _ => .error "decryption proof failed"

/-- decryptVotes from the tally orchestrator: threshold-decrypt each
retained vote with the authority's shares, verify every emitted partial
proof, then classify the plaintext point: identity is a 0 vote, the
generator is a 1 vote, anything else aborts the tally. -/
def decryptVotes (shares : List DKGShare) :
    List ElGamalCiphertext → Except String (List Nat)
  | [] => .ok []
  | ct :: rest => do
      let dec := ct.MultiKeyDecryptWithProof shares
      verifyDecProofs dec.2
      if dec.1 = nullPoint then do
        let tail ← decryptVotes shares rest
        .ok (0 :: tail)
      else if dec.1 = basePoint then do
        let tail ← decryptVotes shares rest
        .ok (1 :: tail)
      else .error "decryption failed"

/-- Stage-7 counting loop of RunTally: the Results map entry for `v`
after folding over the decrypted votes (a missing key reads as 0). -/
def tallyResults (votes : List Nat) (v : Nat) : Nat :=
  votes.foldl (fun acc w => if w = v then acc + 1 else acc) 0

/-- Stage-7 winner declaration of RunTally: Option A exactly when the
0-count strictly exceeds the 1-count. -/
def tallyWinner (votes : List Nat) : String :=
  if tallyResults votes 0 > tallyResults votes 1 then "Option A" else "Option B"

/-! ## RunTally control flow (tally orchestrator source)

The orchestrator's stage bodies operate on the tally state; for the
control-flow claims they are abstracted as state transformers, while the
input-size gate is taken literally from the source.  The trace records
the Recorder names of the stages that were actually entered. -/

/-- Run one recorded stage: skipped entirely if an earlier stage failed,
otherwise entered (traced) and its error propagated. -/
def runStage {σ : Type} (name : String) (f : σ → Except String σ) :
    Except String σ × List String → Except String σ × List String
  | (.error e, trace) => (.error e, trace)
  | (.ok st, trace) =>
      match f st with
      | .error e => (.error e, trace ++ [name])
      | .ok st2 => (.ok st2, trace ++ [name])

/-- The eight stage bodies of RunTally (stage 7 cannot fail; its error
is discarded by the source). -/
structure StageBodies (σ : Type) where
  verifyLedger : σ → Except String σ
  shuffleReg : σ → Except String σ
  tagReg : σ → Except String σ
  shuffleVotes : σ → Except String σ
  tagVotes : σ → Except String σ
  filterVotes : σ → Except String σ
  decryptStage : σ → Except String σ
  results : σ → σ

/-- RunTally control flow: the input-size validation precedes every
stage; on success the eight stages run in order, each aborting the run
on error. -/
def RunTallyTrace {σ : Type} (regCount votesCount : Nat)
    (stages : StageBodies σ) (init : σ) : Except String σ × List String :=
  if regCount < 2 ∨ votesCount < 2 then
    (.error "not enough registration or voting records to tally", [])
  else
    runStage "Tally_7_TallyResults" (fun s => .ok (stages.results s))
      (runStage "Tally_6_DecryptVotes" stages.decryptStage
        (runStage "Tally_5_DetermineRealVotes" stages.filterVotes
          (runStage "Tally_4_DeterministicTagsOnShuffledVotingRecords" stages.tagVotes
            (runStage "Tally_3_ShuffleVotingRecords" stages.shuffleVotes
              (runStage "Tally_2_DeterministicTagsOnShuffledRegistrationRecords" stages.tagReg
                (runStage "Tally_1_ShuffleRegistrationRecords" stages.shuffleReg
                  (runStage "Tally_0_VerifyLedgerContents" stages.verifyLedger
                    (.ok init, []))))))))

/-! ## Voting entries (ledger source) -/

/-- VotingEntry from the ledger source.  The signature bytes and their
kyber Schnorr verification over the serialized payload live outside the
algebraic model; the checker for them is passed as an oracle to Verify. -/
structure VotingEntry where
  CredPk : Point
  EncCredPk : ElGamalCiphertext
  EncCredPkProof : ElGamalProof
  EncVote : ElGamalCiphertext
  EncVoteProof : ElGamalProof

/-- VotingEntry.Verify from the ledger source: membership of the
credential in the authorized list (keyed by canonical encoding, which is
injective, hence point membership), the ballot signature, the
encrypted-credential proof and the encrypted-vote proof, in that order;
the first failure is returned. -/
def VotingEntry.Verify (sigOk : VotingEntry → Bool) (auth : List Point)
    (v : VotingEntry) : Except String Unit :=
  if v.CredPk ∈ auth then
    if sigOk v then
      match v.EncCredPkProof.Verify with
      | .error _ => .error "failed to verify proof of encrypted credential"
      | .ok _ =>
          match v.EncVoteProof.Verify with
          | .error _ => .error "failed to verify proof of encrypted vote"
          | .ok _ => .ok ()
    else .error "failed to verify signature"
  else .error "credential not found in public list of credentials"

/-! ## Chained verifiable shuffle (pkg/crypto and its earlier variant)

The per-member shuffle (kyber shuffle.Shuffle plus HashProve, driven by
the ambient random stream) is abstracted as a function `op` from the
member index and its input lists to a result, and proof verification
(shuffle.Verifier plus HashVerify, depending on the previous member's
input, output and proof) as a boolean `verify`.  The chain logic, the
loop bounds and the update order are taken literally from the two source
implementations.  An event trace records each shuffle performed and each
chain link whose proof was successfully verified. -/

/-- SingleShuffleResult: shuffled component lists plus opaque proof
bytes (a token in the model). -/
structure SingleShuffleResult where
  ShuffledC1s : List Point
  ShuffledC2s : List Point
  Proof : Nat
deriving DecidableEq, Repr

/-- Observable events of a shuffle chain run. -/
inductive ShuffleEvent where
  | shuffled (member : Nat)
  | verifiedLink (link : Nat)
deriving DecidableEq, Repr

/-- Loop of ShuffleElGamalCiphertexts (the variant whose loop runs
`i < n`): at `i > 0` the previous member's proof is verified against the
input it consumed before the input advances to its output; then member
`i` shuffles.  The current input is deliberately not advanced after a
shuffle — it advances only after the next member verifies. -/
def singleShuffleLoop
    (op : Nat → List Point → List Point → SingleShuffleResult)
    (verify : List Point → List Point → SingleShuffleResult → Bool) :
    Nat → Nat → List Point → List Point → List SingleShuffleResult →
    List ShuffleEvent → Except String (List SingleShuffleResult) × List ShuffleEvent
  | _, 0, _, _, chain, evs => (.ok chain, evs)
  | i, rem + 1, curC1, curC2, chain, evs =>
      if i = 0 then
        let result := op 0 curC1 curC2
        singleShuffleLoop op verify 1 rem curC1 curC2 (chain ++ [result])
          (evs ++ [.shuffled 0])
      else
        match chain.getLast? with
        | none => (.error "panic: index out of range", evs)
        | some prev =>
            if verify curC1 curC2 prev then
              let result := op i prev.ShuffledC1s prev.ShuffledC2s
              singleShuffleLoop op verify (i + 1) rem prev.ShuffledC1s
                prev.ShuffledC2s (chain ++ [result])
                (evs ++ [.verifiedLink (i - 1), .shuffled i])
            else (.error "failed to verify previous shuffle", evs)

/-- ShuffleElGamalCiphertexts (earlier crypto package variant): `n`
talliers, loop `i = 0 .. n-1`; the loop exits right after the last
member shuffles, without anyone verifying that last proof. -/
def ShuffleElGamalCiphertexts
    (op : Nat → List Point → List Point → SingleShuffleResult)
    (verify : List Point → List Point → SingleShuffleResult → Bool)
    (n : Nat) (c1s c2s : List Point) :
    Except String (List SingleShuffleResult) × List ShuffleEvent :=
  singleShuffleLoop op verify 0 n c1s c2s [] []

/-- Loop of NeffShuffle.Shuffle from pkg/crypto/shuffle.go: identical to
the variant above except the loop runs `i = 0 .. n` inclusive, and the
extra final iteration verifies the last member's proof and returns the
chain.  Writing the shuffle result into the length-`n` chain slice at
index `i ≥ n` is a Go panic. -/
def neffShuffleLoop (n : Nat)
    (op : Nat → List Point → List Point → SingleShuffleResult)
    (verify : List Point → List Point → SingleShuffleResult → Bool) :
    Nat → Nat → List Point → List Point → List SingleShuffleResult →
    List ShuffleEvent → Except String (List SingleShuffleResult) × List ShuffleEvent
  | _, 0, _, _, _, evs => (.error "should not have been reached", evs)
  | i, rem + 1, curC1, curC2, chain, evs =>
      if i = 0 then
        if n ≤ 0 then (.error "panic: index out of range", evs)
        else
          let result := op 0 curC1 curC2
          neffShuffleLoop n op verify 1 rem curC1 curC2 (chain ++ [result])
            (evs ++ [.shuffled 0])
      else
        match chain.getLast? with
        | none => (.error "panic: index out of range", evs)
        | some prev =>
            if verify curC1 curC2 prev then
              if i = n then (.ok chain, evs ++ [.verifiedLink (i - 1)])
              else if n ≤ i then (.error "panic: index out of range",
                evs ++ [.verifiedLink (i - 1)])
              else
                let result := op i prev.ShuffledC1s prev.ShuffledC2s
                neffShuffleLoop n op verify (i + 1) rem prev.ShuffledC1s
                  prev.ShuffledC2s (chain ++ [result])
                  (evs ++ [.verifiedLink (i - 1), .shuffled i])
            else (.error "failed to verify previous shuffle", evs)

/-- NeffShuffle.Shuffle from pkg/crypto/shuffle.go. -/
def NeffShuffleChain
    (op : Nat → List Point → List Point → SingleShuffleResult)
    (verify : List Point → List Point → SingleShuffleResult → Bool)
    (n : Nat) (c1s c2s : List Point) :
    Except String (List SingleShuffleResult) × List ShuffleEvent :=
  neffShuffleLoop n op verify 0 (n + 1) c1s c2s [] []

/-- Event tail of a chain run from member `i` on: verify link `i-1`,
shuffle member `i`, and so on for `rem` further members. -/
def tailEvents (i : Nat) : Nat → List ShuffleEvent
  | 0 => []
  | rem + 1 => .verifiedLink (i - 1) :: .shuffled i :: tailEvents (i + 1) rem

/-! ## Pointer-store model of the ledger-reading tally operations

Kyber points are mutable heap objects referenced by pointers.  The store
maps references (allocation indices) to point values; `Suite.Point().X`
allocates a fresh cell, while `p.Add(p, q)` mutates the cell behind
`p` in place.  The operations below are the ones RunTally applies to
points reachable from the ledger snapshot; the frame claims are stated
over this model. -/

/-- Heap reference to a kyber point. -/
abbrev Ref := Nat

/-- The point heap: cell values indexed by allocation order. -/
abbrev Store := List Point

/-- Read a cell (dereference). -/
def Store.rd (σ : Store) (r : Ref) : Point := σ.getD r 0

/-- Allocate a fresh cell holding `v` and return its reference. -/
def Store.alloc (σ : Store) (v : Point) : Store × Ref :=
  (σ ++ [v], σ.length)

/-- In-place write to an existing cell. -/
def Store.wr (σ : Store) (r : Ref) (v : Point) : Store :=
  σ.set r v

/-- Two stores agree on every cell of the first (`σ'` only extends or
leaves alone what `σ` holds). -/
def StorePreserved (σ σ' : Store) : Prop :=
  ∀ r : Ref, r < σ.length → σ'.rd r = σ.rd r

/-- ElGamal ciphertext as stored on the ledger: references to its two
point cells. -/
structure ElGamalCiphertextRef where
  C1 : Ref
  C2 : Ref
deriving DecidableEq, Repr

/-- The point references of a VotingEntry that extractBallotSequences
reads. -/
structure VotingEntryRefs where
  EncCredPk : ElGamalCiphertextRef
  EncVote : ElGamalCiphertextRef
deriving DecidableEq, Repr

/-- extractBallotSequences from the tally orchestrator, at the store
level: for each voting entry it allocates four fresh cells via
Suite.Point().Set holding copies of the entry's credential and vote
components, in source order. -/
def extractBallotSequencesH (σ : Store) :
    List VotingEntryRefs → Store × List Ref × List Ref × List Ref × List Ref
  | [] => (σ, [], [], [], [])
  | v :: rest =>
      let a1 := σ.alloc (σ.rd v.EncCredPk.C1)
      let a2 := a1.1.alloc (a1.1.rd v.EncCredPk.C2)
      let a3 := a2.1.alloc (a2.1.rd v.EncVote.C1)
      let a4 := a3.1.alloc (a3.1.rd v.EncVote.C2)
      let tail := extractBallotSequencesH a4.1 rest
      (tail.1, a1.2 :: tail.2.1, a2.2 :: tail.2.2.1,
        a3.2 :: tail.2.2.2.1, a4.2 :: tail.2.2.2.2)

/-- Share loop of MultiKeyDecryptWithProof at the store level: the Go
code builds a fresh partialDec struct whose fields alias the receiver's
cells; each Decrypt allocates a fresh shared-secret cell X = sk*C1 and a
fresh plaintext cell M = C2 - X, and only the struct's C2 field pointer
is reassigned, never a cell written. -/
def multiKeyDecryptLoopH (σ : Store) (c1 : Ref) (cur : Ref) :
    List DKGShare → Store × Ref
  | [] => (σ, cur)
  | s :: rest =>
      let aX := σ.alloc (s.Sk * σ.rd c1)
      let aM := aX.1.alloc (aX.1.rd cur - aX.1.rd aX.2)
      multiKeyDecryptLoopH aM.1 c1 aM.2 rest

/-- MultiKeyDecryptWithProof at the store level: returns the reference
holding the final plaintext. -/
def multiKeyDecryptWithProofH (σ : Store) (ct : ElGamalCiphertextRef)
    (shares : List DKGShare) : Store × Ref :=
  multiKeyDecryptLoopH σ ct.C1 ct.C2 shares

/-- Copy loop at the head of performRound1Chain: one fresh
Suite.Point().Set cell per input C2. -/
def copyRefsH (σ : Store) : List Ref → Store × List Ref
  | [] => (σ, [])
  | r :: rest =>
      let a := σ.alloc (σ.rd r)
      let tail := copyRefsH a.1 rest
      (tail.1, a.2 :: tail.2)

/-- Blinding loop of performRound1Chain at the store level: an in-place
`Add` on every (copied) C2 cell for one tallier's commitment. -/
def addCommitmentH (commitment : Point) (σ : Store) (refs : List Ref) : Store :=
  refs.foldl (fun σ r => σ.wr r (σ.rd r + commitment)) σ

/-- performRound1Chain at the store level: copy all C2 cells once, then
mutate only those copies, one pass per tallier commitment. -/
def performRound1ChainH (σ : Store) (c2refs : List Ref)
    (commitments : List Point) : Store × List Ref :=
  let copied := copyRefsH σ c2refs
  (commitments.foldl (fun σ c => addCommitmentH c σ copied.2) copied.1,
    copied.2)

/-- A store extends another: it is at least as long and agrees on every
cell of the smaller one.  The frame claims say the tally leaves the
ledger's cells as they were. -/
def StoreExtends (σ σ' : Store) : Prop :=
  σ.length ≤ σ'.length ∧ StorePreserved σ σ'

/-! ## Witness data and derived definitions -/

/-- Sum of the Round-1 public commitments of a tallier list. -/
def sumCommitments (ts : List Tallier) : Point :=
  (ts.map (fun t => t.FreshSecret * basePoint)).sum

/-- Sum of the long-term secret shares of a tallier list. -/
def secretShareSum (ts : List Tallier) : Scalar :=
  (ts.map (fun t => t.SecretShare)).sum

/-- Product of the fresh secrets of a tallier list. -/
def freshSecretProd (ts : List Tallier) : Scalar :=
  (ts.map (fun t => t.FreshSecret)).prod

/-- Per-position effect of the Round-2 chain on one ciphertext pair. -/
def round2Fold (ts : List Tallier) (p : Point × Point) : Point × Point :=
  ts.foldl
    (fun q t => (t.FreshSecret * q.1, t.FreshSecret * (q.2 - t.SecretShare * q.1)))
    p

/-- The bundle PerformRound2 assembles on inputs of matching length. -/
def round2Bundle (t : Tallier) (c1s c2s : List Point) : PartialTagBundle :=
  { TallierID := t.ID
    UpdatedC1s := (c1s.zip c2s).map (fun p => (t.round2Worker p.1 p.2).1)
    UpdatedC2s := (c1s.zip c2s).map (fun p => (t.round2Worker p.1 p.2).2.1)
    RemaskingProofs := (c1s.zip c2s).map (fun p => (t.round2Worker p.1 p.2).2.2) }

/-- Final C2 components of the Round-2 chain, per position. -/
def round2ChainC2s (ts : List Tallier) (c1s c2s : List Point) : List Point :=
  (c1s.zip c2s).map (fun p => (round2Fold ts p).2)

/-- Final C1 components of the Round-2 chain, per position. -/
def round2ChainC1s (ts : List Tallier) (c1s c2s : List Point) : List Point :=
  (c1s.zip c2s).map (fun p => (round2Fold ts p).1)

/-- History of bundles the Round-2 chain publishes. -/
def round2ChainBundles : List Tallier → List Point → List Point → List PartialTagBundle
  | [], _, _ => []
  | t :: rest, c1s, c2s =>
      round2Bundle t c1s c2s ::
        round2ChainBundles rest (round2Bundle t c1s c2s).UpdatedC1s
          (round2Bundle t c1s c2s).UpdatedC2s

/-- Plaintext point produced by the threshold decryption of one vote. -/
def thresholdPlaintext (shares : List DKGShare) (ct : ElGamalCiphertext) :
    Point :=
  (ct.MultiKeyDecryptWithProof shares).1

/-- Authorized set used in the C6 witness. -/
def witnessAuth : List Point := [basePoint]

/-- Concrete voting entry used in the C6 witness; both proofs are honest
trivial Rep instances. -/
def witnessVotingEntry : VotingEntry :=
  { CredPk := basePoint
    EncCredPk := ⟨0, 0⟩
    EncCredPkProof := ⟨.rep 0 []⟩
    EncVote := ⟨0, 0⟩
    EncVoteProof := ⟨.rep 0 []⟩ }

/-- Shares used in the C3 and C7 witnesses. -/
def witnessShares : List DKGShare := [⟨2, 2⟩, ⟨3, 3⟩]

/-! ## Theorems -/

/-- C10: for every configuration and worker, ForEach on an empty slice
returns nil without invoking the worker (the result is the same for
every worker), whereas Map on an empty slice returns the error "no items
to map" without invoking the worker — the two primitives disagree on
whether an empty input is an error. -/
theorem concurrency_empty_input_disagreement :
    ∀ (α β γ : Type) (cores : Nat) (f : Nat → α → Except String Unit)
      (g : β → Except String γ),
      ForEach cores ([] : List α) f = .ok () ∧
      Map cores ([] : List β) g = .error "no items to map" := by
  intro α β γ cores f g
  exact ⟨rfl, rfl⟩

/-- C2 counterexample: with decrypted votes counting to {0 ↦ 2, 1 ↦ 2}
(the S1 scenario), stage 7 declares Option B, not Option A: the tie is
not broken toward the lower-indexed option. -/
theorem tally_tie_counterexample :
    tallyResults [0, 0, 1, 1] 0 = tallyResults [0, 0, 1, 1] 1 ∧
    tallyWinner [0, 0, 1, 1] = "Option B" ∧
    tallyWinner [0, 0, 1, 1] ≠ "Option A" := by
  exact ⟨rfl, rfl, by decide⟩

/-- C2 amended: whenever the decrypted 0-count equals the 1-count, stage
7 declares Option B (the winner comparison is strict, so a tie falls to
the else branch). -/
theorem tally_tie_amended :
    ∀ votes : List Nat,
      tallyResults votes 0 = tallyResults votes 1 →
      tallyWinner votes = "Option B" := by
  intro votes h
  unfold tallyWinner
  rw [if_neg]
  omega

/-- C2 amended, witness at the S1 counts. -/
theorem tally_tie_amended_witness :
    tallyWinner [0, 0, 1, 1] = "Option B" :=
  tally_tie_amended [0, 0, 1, 1] rfl

/-- Any run of one recorded stage only appends to the trace. -/
theorem runStage_trace_extends {σ : Type} (name : String)
    (f : σ → Except String σ) (p : Except String σ × List String) :
    ∃ tr, (runStage name f p).2 = p.2 ++ tr := by
  obtain ⟨res, trace⟩ := p
  cases res with
  | error e => exact ⟨[], by simp [runStage]⟩
  | ok st =>
      cases hf : f st with
      | error e => exact ⟨[name], by simp [runStage, hf]⟩
      | ok st2 => exact ⟨[name], by simp [runStage, hf]⟩

/-- A stage entered from a clean ok state traces exactly its name. -/
theorem runStage_trace_initial {σ : Type} (name : String)
    (f : σ → Except String σ) (st : σ) :
    (runStage name f (.ok st, [])).2 = [name] := by
  cases hf : f st with
  | error e => simp [runStage, hf]
  | ok st2 => simp [runStage, hf]

/-- C8: with fewer than two registration records or fewer than two
voting records, RunTally fails with the not-enough-records error before
entering any tally stage (the trace is empty); with at least two of
each, the size check passes and stage 0 (ledger verification) is the
first stage entered. -/
theorem runTally_minimum_input_sizes :
    ∀ (σ : Type) (regCount votesCount : Nat) (stages : StageBodies σ)
      (init : σ),
      (regCount < 2 ∨ votesCount < 2 →
        RunTallyTrace regCount votesCount stages init =
          (.error "not enough registration or voting records to tally", [])) ∧
      (2 ≤ regCount → 2 ≤ votesCount →
        (RunTallyTrace regCount votesCount stages init).2.head? =
          some "Tally_0_VerifyLedgerContents") := by
  intro σ regCount votesCount stages init
  constructor
  · intro h
    simp [RunTallyTrace, h]
  · intro hreg hvotes
    have hgate : ¬(regCount < 2 ∨ votesCount < 2) := by omega
    unfold RunTallyTrace
    rw [if_neg hgate]
    set p0 := runStage "Tally_0_VerifyLedgerContents" stages.verifyLedger
      (.ok init, []) with hp0
    have h0 : p0.2 = ["Tally_0_VerifyLedgerContents"] :=
      runStage_trace_initial _ _ _
    set p1 := runStage "Tally_1_ShuffleRegistrationRecords" stages.shuffleReg p0
    obtain ⟨t1, h1⟩ := runStage_trace_extends
      "Tally_1_ShuffleRegistrationRecords" stages.shuffleReg p0
    set p2 := runStage "Tally_2_DeterministicTagsOnShuffledRegistrationRecords"
      stages.tagReg p1
    obtain ⟨t2, h2⟩ := runStage_trace_extends _ stages.tagReg p1
    set p3 := runStage "Tally_3_ShuffleVotingRecords" stages.shuffleVotes p2
    obtain ⟨t3, h3⟩ := runStage_trace_extends _ stages.shuffleVotes p2
    set p4 := runStage "Tally_4_DeterministicTagsOnShuffledVotingRecords"
      stages.tagVotes p3
    obtain ⟨t4, h4⟩ := runStage_trace_extends _ stages.tagVotes p3
    set p5 := runStage "Tally_5_DetermineRealVotes" stages.filterVotes p4
    obtain ⟨t5, h5⟩ := runStage_trace_extends _ stages.filterVotes p4
    set p6 := runStage "Tally_6_DecryptVotes" stages.decryptStage p5
    obtain ⟨t6, h6⟩ := runStage_trace_extends _ stages.decryptStage p5
    obtain ⟨t7, h7⟩ := runStage_trace_extends "Tally_7_TallyResults"
      (fun s => .ok (stages.results s)) p6
    rw [h7, h6, h5, h4, h3, h2, h1, h0]
    simp

/-- C8 witness: the gate fires at sizes (1, 5) and passes at (2, 2),
with a concrete trivial stage assignment. -/
theorem runTally_minimum_input_sizes_witness :
    RunTallyTrace 1 5
        { verifyLedger := fun s => .ok s, shuffleReg := fun s => .ok s
          tagReg := fun s => .ok s, shuffleVotes := fun s => .ok s
          tagVotes := fun s => .ok s, filterVotes := fun s => .ok s
          decryptStage := fun s => .ok s, results := fun s => s } (0 : Nat) =
      (.error "not enough registration or voting records to tally", []) ∧
    (RunTallyTrace 2 2
        { verifyLedger := fun s => .ok s, shuffleReg := fun s => .ok s
          tagReg := fun s => .ok s, shuffleVotes := fun s => .ok s
          tagVotes := fun s => .ok s, filterVotes := fun s => .ok s
          decryptStage := fun s => .ok s, results := fun s => s } (0 : Nat)).2.head? =
      some "Tally_0_VerifyLedgerContents" := by
  constructor
  · exact (runTally_minimum_input_sizes Nat 1 5 _ 0).1 (Or.inl (by omega))
  · exact (runTally_minimum_input_sizes Nat 2 2 _ 0).2 (by omega) (by omega)

/-- C6: VotingEntry.Verify succeeds exactly when the credential is in
the authorized set, the ballot signature verifies, the
encrypted-credential proof verifies and the encrypted-vote OR-proof
verifies; in particular an absent credential always yields an error. -/
theorem votingEntry_verify_iff :
    ∀ (sigOk : VotingEntry → Bool) (auth : List Point) (v : VotingEntry),
      (VotingEntry.Verify sigOk auth v = .ok () ↔
        (v.CredPk ∈ auth ∧ sigOk v = true ∧
          v.EncCredPkProof.pred.holds = true ∧
          v.EncVoteProof.pred.holds = true)) ∧
      (v.CredPk ∉ auth → ∃ e, VotingEntry.Verify sigOk auth v = .error e) := by
  intro sigOk auth v
  constructor
  · by_cases hmem : v.CredPk ∈ auth
    · by_cases hsig : sigOk v
      · by_cases hc : v.EncCredPkProof.pred.holds
        · by_cases hv : v.EncVoteProof.pred.holds
          · simp [VotingEntry.Verify, ElGamalProof.Verify, hmem, hsig, hc, hv]
          · simp [VotingEntry.Verify, ElGamalProof.Verify, hmem, hsig, hc, hv]
        · simp [VotingEntry.Verify, ElGamalProof.Verify, hmem, hsig, hc]
      · simp [VotingEntry.Verify, hmem, hsig]
    · simp [VotingEntry.Verify, hmem]
  · intro hmem
    exact ⟨"credential not found in public list of credentials",
      by simp [VotingEntry.Verify, hmem]⟩

/-- C6 witness: the entry verifies against an authorized set containing
its credential, and errs against an empty authorized set. -/
theorem votingEntry_verify_iff_witness :
    VotingEntry.Verify (fun _ => true) witnessAuth witnessVotingEntry = .ok () ∧
    ∃ e, VotingEntry.Verify (fun _ => true) [] witnessVotingEntry = .error e := by
  constructor
  · exact (votingEntry_verify_iff (fun _ => true) witnessAuth
      witnessVotingEntry).1.mpr (by decide)
  · exact (votingEntry_verify_iff (fun _ => true) [] witnessVotingEntry).2
      (by decide)

/-- The share loop of MultiKeyDecryptWithProof subtracts each share's
partial decryption from the running C2. -/
theorem multiKeyDecryptLoop_fst (c1 : Point) (shares : List DKGShare) :
    ∀ c2 : Point, (multiKeyDecryptLoop c1 c2 shares).1 =
      c2 - (shares.map (fun s => s.Sk)).sum * c1 := by
  induction shares with
  | nil => intro c2; simp [multiKeyDecryptLoop]
  | cons s rest ih =>
      intro c2
      simp only [multiKeyDecryptLoop, ElGamalCiphertext.DecryptWithProof,
        ElGamalCiphertext.Decrypt, List.map_cons, List.sum_cons, ih]
      ring

/-- Every partial-decryption proof the share loop emits verifies, for
well-formed shares. -/
theorem multiKeyDecryptLoop_proofs (c1 : Point) (shares : List DKGShare)
    (hwf : ∀ s ∈ shares, s.WellFormed) :
    ∀ c2 : Point, ∀ p ∈ (multiKeyDecryptLoop c1 c2 shares).2,
      p.Verify = .ok () := by
  induction shares with
  | nil => intro c2 p hp; simp [multiKeyDecryptLoop] at hp
  | cons s rest ih =>
      intro c2 p hp
      simp only [multiKeyDecryptLoop, List.mem_cons] at hp
      rcases hp with hp | hp
      · subst hp
        have hs : s.Pk = s.Sk * basePoint := hwf s (by simp)
        simp [ElGamalCiphertext.DecryptWithProof, ElGamalCiphertext.Decrypt,
          ElGamalProof.Verify, PredModel.holds, hs]
      · exact ih (fun t ht => hwf t (by simp [ht])) _ p hp

/-- For well-formed shares the collective public key is the sum of the
private shares times the base point. -/
theorem dkgCollectivePk_eq (shares : List DKGShare)
    (hwf : ∀ s ∈ shares, s.WellFormed) :
    dkgCollectivePk shares = (shares.map (fun s => s.Sk)).sum * basePoint := by
  induction shares with
  | nil => simp [dkgCollectivePk]
  | cons s rest ih =>
      have hs : s.Pk = s.Sk * basePoint := hwf s (by simp)
      simp only [dkgCollectivePk, List.map_cons, List.sum_cons] at *
      rw [hs, ih (fun t ht => hwf t (by simp [ht]))]
      ring

/-- C3: for any list of at least one well-formed key share whose public
keys sum to the election key, MultiKeyDecryptWithProof applied to an
ElGamal encryption of M recovers M, and every partial-decryption proof
it emits verifies. -/
theorem threshold_decrypt_roundtrip :
    ∀ (shares : List DKGShare) (Pk M : Point) (x : Scalar),
      shares ≠ [] →
      (∀ s ∈ shares, s.WellFormed) →
      Pk = dkgCollectivePk shares →
      ((ElGamalEncryptPoint Pk M x).1.MultiKeyDecryptWithProof shares).1 = M ∧
      ∀ p ∈ ((ElGamalEncryptPoint Pk M x).1.MultiKeyDecryptWithProof shares).2,
        p.Verify = .ok () := by
  intro shares Pk M x _ hwf hPk
  constructor
  · have hsum := dkgCollectivePk_eq shares hwf
    simp only [ElGamalCiphertext.MultiKeyDecryptWithProof, ElGamalEncryptPoint,
      multiKeyDecryptLoop_fst, hPk, hsum]
    ring
  · intro p hp
    exact multiKeyDecryptLoop_proofs _ shares hwf _ p hp

/-- C3 witness: two concrete shares, election key 5, message 7,
randomness 4. -/
theorem threshold_decrypt_roundtrip_witness :
    ((ElGamalEncryptPoint 5 7 4).1.MultiKeyDecryptWithProof witnessShares).1 = 7 ∧
    ∀ p ∈ ((ElGamalEncryptPoint 5 7 4).1.MultiKeyDecryptWithProof witnessShares).2,
      p.Verify = .ok () :=
  threshold_decrypt_roundtrip witnessShares 5 7 4 (by decide) (by decide)
    (by decide)

/-- Bind on a successful Except computation. -/
theorem exceptBind_ok {α β : Type} (a : α) (f : α → Except String β) :
    (Except.ok a >>= f) = f a := rfl

/-- Bind on a failed Except computation. -/
theorem exceptBind_error {α β : Type} (e : String)
    (f : α → Except String β) :
    ((Except.error e : Except String α) >>= f) = .error e := rfl

/-- The generator differs from the identity in a group of the suite's
order. -/
theorem basePoint_ne_nullPoint : basePoint ≠ nullPoint := by decide

/-- The proof-verification loop of decryptVotes succeeds when every
proof verifies. -/
theorem verifyDecProofs_ok (proofs : List ElGamalProof)
    (h : ∀ p ∈ proofs, p.Verify = .ok ()) :
    verifyDecProofs proofs = .ok () := by
  induction proofs with
  | nil => rfl
  | cons p rest ih =>
      have hp := h p (by simp)
      simp only [verifyDecProofs, hp]
      exact ih (fun q hq => h q (by simp [hq]))

/-- C7: with well-formed shares, decryptVotes classifies every vote
whose threshold plaintext is the identity as 0 and every vote whose
plaintext is the generator as 1; and as soon as the list contains a vote
whose plaintext is neither, it returns the decryption-failed error and
no result list, whatever follows that vote. -/
theorem decryptVotes_classification :
    ∀ (shares : List DKGShare),
      (∀ s ∈ shares, s.WellFormed) →
      (∀ cts : List ElGamalCiphertext,
        (∀ ct ∈ cts, thresholdPlaintext shares ct = nullPoint ∨
          thresholdPlaintext shares ct = basePoint) →
        decryptVotes shares cts = .ok (cts.map (fun ct =>
          if thresholdPlaintext shares ct = nullPoint then 0 else 1))) ∧
      (∀ (pre rest : List ElGamalCiphertext) (bad : ElGamalCiphertext),
        (∀ ct ∈ pre, thresholdPlaintext shares ct = nullPoint ∨
          thresholdPlaintext shares ct = basePoint) →
        ¬(thresholdPlaintext shares bad = nullPoint ∨
          thresholdPlaintext shares bad = basePoint) →
        decryptVotes shares (pre ++ bad :: rest) = .error "decryption failed") := by
  intro shares hwf
  have hproofs : ∀ ct : ElGamalCiphertext,
      verifyDecProofs (ct.MultiKeyDecryptWithProof shares).2 = .ok () := by
    intro ct
    exact verifyDecProofs_ok _
      (fun p hp => multiKeyDecryptLoop_proofs _ shares hwf _ p hp)
  constructor
  · intro cts hgood
    induction cts with
    | nil => rfl
    | cons ct rest ih =>
        have hct := hgood ct (by simp)
        have htail := ih (fun c hc => hgood c (by simp [hc]))
        simp only [thresholdPlaintext] at hct
        rcases hct with hct | hct
        · simp [decryptVotes, hproofs ct, hct, htail, thresholdPlaintext,
            exceptBind_ok]
        · by_cases hnull : (ct.MultiKeyDecryptWithProof shares).1 = nullPoint
          · simp [decryptVotes, hproofs ct, hnull, htail, thresholdPlaintext,
              exceptBind_ok]
          · simp [decryptVotes, hproofs ct, hct, hnull, htail,
              thresholdPlaintext, basePoint_ne_nullPoint, exceptBind_ok]
  · intro pre rest bad hpre hbad
    push_neg at hbad
    obtain ⟨hb0, hb1⟩ := hbad
    simp only [thresholdPlaintext] at hb0 hb1
    induction pre with
    | nil =>
        simp [decryptVotes, hproofs bad, hb0, hb1, exceptBind_ok]
    | cons ct pre' ih =>
        have hct := hpre ct (by simp)
        have htail := ih (fun c hc => hpre c (by simp [hc]))
        simp only [thresholdPlaintext] at hct
        rcases hct with hct | hct
        · simp [decryptVotes, hproofs ct, hct, htail, exceptBind_ok,
            exceptBind_error]
        · by_cases hnull : (ct.MultiKeyDecryptWithProof shares).1 = nullPoint
          · simp [decryptVotes, hproofs ct, hnull, htail, exceptBind_ok,
              exceptBind_error]
          · simp [decryptVotes, hproofs ct, hct, hnull, htail,
              basePoint_ne_nullPoint, exceptBind_ok, exceptBind_error]

/-- C7 witness: with the concrete shares (total key 5), the votes
encrypting 0 and 1 with randomness 0 decrypt and classify, and
inserting a ciphertext whose plaintext is 9 aborts. -/
theorem decryptVotes_classification_witness :
    decryptVotes witnessShares [⟨0, 0⟩, ⟨0, 1⟩] = .ok [0, 1] ∧
    decryptVotes witnessShares [⟨0, 0⟩, ⟨0, 9⟩, ⟨0, 1⟩] =
      .error "decryption failed" := by
  constructor
  · have h := (decryptVotes_classification witnessShares (by decide)).1
      [⟨0, 0⟩, ⟨0, 1⟩] (by decide)
    simpa using h
  · exact (decryptVotes_classification witnessShares (by decide)).2
      [⟨0, 0⟩] [⟨0, 1⟩] ⟨0, 9⟩ (by decide) (by decide)

/-- Round 1 adds the sum of all commitments to every C2. -/
theorem performRound1Chain_fst (ts : List Tallier) :
    ∀ c2s : List Point, (performRound1Chain c2s ts).1 =
      c2s.map (fun c2 => c2 + sumCommitments ts) := by
  induction ts with
  | nil =>
      intro c2s
      simp [performRound1Chain, sumCommitments]
  | cons t rest ih =>
      intro c2s
      have hfun : (fun c2 : Point =>
          c2 + t.FreshSecret * basePoint + sumCommitments rest) =
          (fun c2 : Point => c2 + sumCommitments (t :: rest)) := by
        funext c2
        simp [sumCommitments]
        ring
      simp only [performRound1Chain, Tallier.PerformRound1, round1Step, ih,
        List.map_map]
      rw [← hfun]
      rfl

/-- The Round-1 history is one bundle per tallier, in order. -/
theorem performRound1Chain_snd (ts : List Tallier) :
    ∀ c2s : List Point, (performRound1Chain c2s ts).2 =
      ts.map Tallier.PerformRound1 := by
  induction ts with
  | nil => intro c2s; rfl
  | cons t rest ih =>
      intro c2s
      simp only [performRound1Chain, List.map_cons, ih]

/-- The verifier's Round-1 replay adds the sum of the bundles'
commitments to every C2. -/
theorem round1Replay_eq (bundles : List Round1Bundle) :
    ∀ c2s : List Point,
      bundles.foldl (fun cur b => round1Step b.PublicCommitment cur) c2s =
        c2s.map (fun c2 => c2 + (bundles.map (fun b => b.PublicCommitment)).sum) := by
  induction bundles with
  | nil => intro c2s; simp
  | cons b rest ih =>
      intro c2s
      rw [List.foldl_cons, ih, round1Step, List.map_map]
      have hfun : ((fun c2 : Point =>
          c2 + (rest.map (fun b => b.PublicCommitment)).sum) ∘
            (fun c2 : Point => c2 + b.PublicCommitment)) =
          (fun c2 : Point =>
            c2 + ((b :: rest).map (fun b => b.PublicCommitment)).sum) := by
        funext c2
        simp [Function.comp]
        ring
      rw [hfun]

/-- Every honest Round-1 bundle verifies. -/
theorem verifyRound1Bundles_ok (ts : List Tallier) :
    verifyRound1Bundles (ts.map Tallier.PerformRound1) = .ok () := by
  induction ts with
  | nil => rfl
  | cons t rest ih =>
      simp only [List.map_cons, verifyRound1Bundles, VerifyRound1Bundle,
        Tallier.PerformRound1, Round1Proof.verifies]
      simp [ih]

/-- The Map loop with an always-ok worker collects the mapped list. -/
theorem mapLoop_ok {α β : Type} (g : α → β) :
    ∀ l : List α,
      mapLoop (fun a => (Except.ok (g a) : Except String β)) l = .ok (l.map g) := by
  intro l
  induction l with
  | nil => rfl
  | cons a rest ih =>
      simp [mapLoop, ih, exceptBind_ok]

/-- PerformRound2 on matching non-empty inputs succeeds with the bundle
of remasked components and proofs. -/
theorem performRound2_ok (t : Tallier) (cores : Nat) (c1s c2s : List Point)
    (hne : c1s ≠ []) (hlen : c1s.length = c2s.length) :
    t.PerformRound2 cores c1s c2s = .ok (round2Bundle t c1s c2s) := by
  have hzlen : (c1s.zip c2s).length = c1s.length := by
    simp [List.length_zip, hlen]
  have hz : (c1s.zip c2s).length ≠ 0 := by
    rw [hzlen]
    simpa [List.length_eq_zero] using hne
  unfold Tallier.PerformRound2
  rw [if_neg (by omega)]
  unfold Map
  rw [if_neg hz]
  rw [mapLoop_ok (fun item : Point × Point => t.round2Worker item.1 item.2)]
  simp [exceptBind_ok, round2Bundle, List.map_map]

/-- Length of the remasked component lists. -/
theorem round2Bundle_len (t : Tallier) (c1s c2s : List Point)
    (hlen : c1s.length = c2s.length) :
    (round2Bundle t c1s c2s).UpdatedC1s.length = c1s.length ∧
    (round2Bundle t c1s c2s).UpdatedC2s.length = c1s.length := by
  constructor <;> simp [round2Bundle, List.length_zip, hlen]

/-- The Round-2 chain on matching non-empty inputs succeeds, its final
state being the per-position fold and its history the bundle list. -/
theorem performRound2Chain_ok (cores : Nat) (ts : List Tallier) :
    ∀ c1s c2s : List Point, c1s ≠ [] → c1s.length = c2s.length →
      performRound2Chain cores c1s c2s ts =
        .ok (round2ChainC1s ts c1s c2s, round2ChainC2s ts c1s c2s,
          round2ChainBundles ts c1s c2s) := by
  induction ts with
  | nil =>
      intro c1s c2s hne hlen
      simp only [performRound2Chain, round2ChainC1s, round2ChainC2s,
        round2ChainBundles, round2Fold, List.foldl_nil]
      rw [List.map_fst_zip c1s c2s (le_of_eq hlen),
        List.map_snd_zip c1s c2s (ge_of_eq hlen)]
  | cons t rest ih =>
      intro c1s c2s hne hlen
      have hblen := round2Bundle_len t c1s c2s hlen
      have hbne : (round2Bundle t c1s c2s).UpdatedC1s ≠ [] := by
        rw [← List.length_pos_iff_ne_nil, hblen.1, List.length_pos_iff_ne_nil]
        exact hne
      have hzip : (round2Bundle t c1s c2s).UpdatedC1s.zip
          (round2Bundle t c1s c2s).UpdatedC2s =
          (c1s.zip c2s).map (fun p =>
            ((t.round2Worker p.1 p.2).1, (t.round2Worker p.1 p.2).2.1)) := by
        simp only [round2Bundle]
        rw [List.zip_map']
      have hstep : ∀ p : Point × Point,
          ((t.round2Worker p.1 p.2).1, (t.round2Worker p.1 p.2).2.1) =
            (t.FreshSecret * p.1, t.FreshSecret * (p.2 - t.SecretShare * p.1)) := by
        intro p
        rfl
      simp only [performRound2Chain,
        performRound2_ok t cores c1s c2s hne hlen, exceptBind_ok,
        ih _ _ hbne (hblen.1.trans hblen.2.symm), round2ChainBundles]
      simp only [round2ChainC1s, round2ChainC2s, hzip, List.map_map]
      have hfold1 : ((fun p : Point × Point => (round2Fold rest p).1) ∘
          fun p : Point × Point =>
            ((t.round2Worker p.1 p.2).1, (t.round2Worker p.1 p.2).2.1)) =
          fun p : Point × Point => (round2Fold (t :: rest) p).1 := by
        funext p
        simp only [Function.comp, hstep, round2Fold, List.foldl_cons]
      have hfold2 : ((fun p : Point × Point => (round2Fold rest p).2) ∘
          fun p : Point × Point =>
            ((t.round2Worker p.1 p.2).1, (t.round2Worker p.1 p.2).2.1)) =
          fun p : Point × Point => (round2Fold (t :: rest) p).2 := by
        funext p
        simp only [Function.comp, hstep, round2Fold, List.foldl_cons]
      rw [hfold1, hfold2]

/-- Telescoping of the Round-2 chain: on a pair whose C2 carries the
share-sum multiple of its C1, the x-dependent part cancels member by
member, leaving the product of the fresh secrets times the carried
value. -/
theorem round2Fold_telescope (ts : List Tallier) :
    ∀ a M : Point,
      round2Fold ts (a, M + secretShareSum ts * a) =
        (freshSecretProd ts * a, freshSecretProd ts * M) := by
  induction ts with
  | nil =>
      intro a M
      simp [round2Fold, secretShareSum, freshSecretProd]
  | cons t rest ih =>
      intro a M
      have hstep : t.FreshSecret * (M + secretShareSum (t :: rest) * a -
          t.SecretShare * a) =
          t.FreshSecret * M + secretShareSum rest * (t.FreshSecret * a) := by
        simp only [secretShareSum, List.map_cons, List.sum_cons]
        ring
      simp only [round2Fold, List.foldl_cons] at *
      rw [hstep, ih (t.FreshSecret * a) (t.FreshSecret * M)]
      simp only [freshSecretProd, List.map_cons, List.prod_cons,
        Prod.mk.injEq]
      constructor <;> ring

/-- For well-formed talliers the sum of the public key shares is the
share sum times the base point. -/
theorem tallierKeySum_eq (ts : List Tallier)
    (hwf : ∀ t ∈ ts, t.WellFormed) :
    (ts.map (fun t => t.PublicKey)).sum = secretShareSum ts * basePoint := by
  induction ts with
  | nil => simp [secretShareSum]
  | cons t rest ih =>
      have ht : t.PublicKey = t.SecretShare * basePoint := hwf t (by simp)
      simp only [List.map_cons, List.sum_cons, secretShareSum] at *
      rw [ht, ih (fun u hu => hwf u (by simp [hu]))]
      ring

/-- C1 (DDT determinism): for any batch, any talliers whose public keys
sum to the election key, and any two positions holding ElGamal
encryptions of the same credential point K under that key (with
arbitrary randomness), GenerateDeterministicTags succeeds and the final
tags at the two positions are equal (and defined). -/
theorem ddt_determinism :
    ∀ (cores : Nat) (ts : List Tallier) (Pk K : Point) (x y : Scalar)
      (c1s c2s : List Point) (i j : Nat),
      (∀ t ∈ ts, t.WellFormed) →
      Pk = (ts.map (fun t => t.PublicKey)).sum →
      c1s.length = c2s.length →
      c1s.get? i = some (ElGamalEncryptPoint Pk K x).1.C1 →
      c2s.get? i = some (ElGamalEncryptPoint Pk K x).1.C2 →
      c1s.get? j = some (ElGamalEncryptPoint Pk K y).1.C1 →
      c2s.get? j = some (ElGamalEncryptPoint Pk K y).1.C2 →
      ∃ tags pf,
        GenerateDeterministicTags cores c1s c2s ts = .ok (tags, pf) ∧
        tags.get? i = tags.get? j ∧
        tags.get? i = some (freshSecretProd ts * (K + sumCommitments ts)) := by
  intro cores ts Pk K x y c1s c2s i j hwf hPk hlen hi1 hi2 hj1 hj2
  have hne : c1s ≠ [] := by
    intro hnil
    rw [hnil] at hi1
    simp at hi1
  have hlen0 : ¬c1s.length = 0 := by
    simpa [List.length_eq_zero] using hne
  have hr1len : (performRound1Chain c2s ts).1.length = c2s.length := by
    rw [performRound1Chain_fst]
    simp
  have hchain := performRound2Chain_ok cores ts c1s (performRound1Chain c2s ts).1
    hne (by rw [hr1len, hlen])
  refine ⟨round2ChainC2s ts c1s (performRound1Chain c2s ts).1,
    ⟨(performRound1Chain c2s ts).2, round2ChainBundles ts c1s
      (performRound1Chain c2s ts).1⟩, ?_, ?_⟩
  · unfold GenerateDeterministicTags
    rw [if_neg hlen0]
    simp only [hchain, exceptBind_ok]
  · have htag : ∀ (m : Nat) (z : Scalar),
        c1s.get? m = some (ElGamalEncryptPoint Pk K z).1.C1 →
        c2s.get? m = some (ElGamalEncryptPoint Pk K z).1.C2 →
        (round2ChainC2s ts c1s (performRound1Chain c2s ts).1).get? m =
          some (freshSecretProd ts * (K + sumCommitments ts)) := by
      intro m z hm1 hm2
      have hr1m : (performRound1Chain c2s ts).1.get? m =
          some ((ElGamalEncryptPoint Pk K z).1.C2 + sumCommitments ts) := by
        rw [performRound1Chain_fst, List.get?_map, hm2]
        rfl
      have hzip : (c1s.zip (performRound1Chain c2s ts).1).get? m =
          some ((ElGamalEncryptPoint Pk K z).1.C1,
            (ElGamalEncryptPoint Pk K z).1.C2 + sumCommitments ts) :=
        (List.get?_zip_eq_some _ _ _ m).mpr ⟨hm1, hr1m⟩
      have h2 : (ElGamalEncryptPoint Pk K z).1.C2 + sumCommitments ts =
          (K + sumCommitments ts) + secretShareSum ts * (z * basePoint) := by
        show (K + z * Pk) + sumCommitments ts = _
        rw [hPk, tallierKeySum_eq ts hwf]
        ring
      have harg : ((ElGamalEncryptPoint Pk K z).1.C1,
          (ElGamalEncryptPoint Pk K z).1.C2 + sumCommitments ts) =
          ((z * basePoint : Point),
            (K + sumCommitments ts) + secretShareSum ts * (z * basePoint)) := by
        rw [h2]
        rfl
      rw [round2ChainC2s, List.get?_map, hzip]
      simp only [Option.map_some']
      rw [harg, round2Fold_telescope]
    rw [htag i x hi1 hi2, htag j y hj1 hj2]
    exact ⟨rfl, rfl⟩

/-- C1 witness: one tallier (share 2, fresh secret 3), credential 5,
election key 2, randomness 4 and 6 at positions 0 and 1. -/
theorem ddt_determinism_witness :
    ∃ tags pf,
      GenerateDeterministicTags 0 [4, 6] [13, 17] [NewTallier 1 2 3] =
        .ok (tags, pf) ∧
      tags.get? 0 = tags.get? 1 ∧
      tags.get? 0 = some (freshSecretProd [NewTallier 1 2 3] *
        (5 + sumCommitments [NewTallier 1 2 3])) :=
  ddt_determinism 0 [NewTallier 1 2 3] 2 5 4 6 [4, 6] [13, 17] 0 1
    (by decide) (by decide) (by decide) (by decide) (by decide) (by decide)
    (by decide)

/-- The ForEach loop succeeds when the worker succeeds at every index it
is given. -/
theorem forEachLoop_ok {α : Type} (g : Nat → α → Except String Unit) :
    ∀ (l : List α) (i0 : Nat),
      (∀ k, k < l.length → ∀ item, g (i0 + k) item = .ok ()) →
      forEachLoop g i0 l = .ok () := by
  intro l
  induction l with
  | nil => intro i0 h; rfl
  | cons x xs ih =>
      intro i0 h
      have hx : g i0 x = .ok () := by
        have := h 0 (by simp) x
        simpa using this
      have hrest : forEachLoop g (i0 + 1) xs = .ok () := by
        apply ih
        intro k hk item
        have := h (k + 1) (by simpa using Nat.succ_lt_succ hk) item
        rw [← this]
        congr 1
        omega
      simp only [forEachLoop, hx, exceptBind_ok, hrest]

/-- Each honest Round-2 per-ciphertext proof verifies against the
verifier's replayed public map. -/
theorem verifySingleRound2Proof_ok (t : Tallier) (hwft : t.WellFormed)
    (a1 a2 : List Point) (hlen : a1.length = a2.length) (k : Nat)
    (hk : k < a1.length) :
    verifySingleRound2Proof a1 a2 t.PerformRound1.PublicCommitment
      t.PublicKey (round2Bundle t a1 a2) k = .ok () := by
  have hk2 : k < a2.length := hlen ▸ hk
  have hg1 : a1.get? k = some (a1.get ⟨k, hk⟩) := List.get?_eq_get hk
  have hg2 : a2.get? k = some (a2.get ⟨k, hk2⟩) := List.get?_eq_get hk2
  have hzip : (a1.zip a2).get? k = some (a1.get ⟨k, hk⟩, a2.get ⟨k, hk2⟩) :=
    (List.get?_zip_eq_some _ _ _ k).mpr ⟨hg1, hg2⟩
  have hu1 : (round2Bundle t a1 a2).UpdatedC1s.get? k =
      some ((t.round2Worker (a1.get ⟨k, hk⟩) (a2.get ⟨k, hk2⟩)).1) := by
    simp only [round2Bundle]
    rw [List.get?_map, hzip]
    rfl
  have hu2 : (round2Bundle t a1 a2).UpdatedC2s.get? k =
      some ((t.round2Worker (a1.get ⟨k, hk⟩) (a2.get ⟨k, hk2⟩)).2.1) := by
    simp only [round2Bundle]
    rw [List.get?_map, hzip]
    rfl
  have hpf : (round2Bundle t a1 a2).RemaskingProofs.get? k =
      some ((t.round2Worker (a1.get ⟨k, hk⟩) (a2.get ⟨k, hk2⟩)).2.2) := by
    simp only [round2Bundle]
    rw [List.get?_map, hzip]
    rfl
  unfold verifySingleRound2Proof
  rw [hg1, hg2, hu1, hu2, hpf]
  have hver : ((t.round2Worker (a1.get ⟨k, hk⟩) (a2.get ⟨k, hk2⟩)).2.2).verifiesAgainst
      { B := basePoint
        S := t.PerformRound1.PublicCommitment
        K := t.PublicKey
        C1_old := a1.get ⟨k, hk⟩
        C2_old := a2.get ⟨k, hk2⟩
        C1_new := (t.round2Worker (a1.get ⟨k, hk⟩) (a2.get ⟨k, hk2⟩)).1
        C2_new := (t.round2Worker (a1.get ⟨k, hk⟩) (a2.get ⟨k, hk2⟩)).2.1
        C1_old_neg := -(a1.get ⟨k, hk⟩) } = true := by
    simp only [Round2Proof.verifiesAgainst, Tallier.round2Worker,
      Tallier.proveRound2, Tallier.remaskCiphertext, Tallier.PerformRound1,
      Bool.and_eq_true, decide_eq_true_eq]
    and_intros <;> first | trivial | exact hwft | ring
  simp only [hver, if_true]

/-- Each honest Round-2 bundle verifies against the verifier's replayed
state. -/
theorem verifyRound2Bundle_ok (cores : Nat) (t : Tallier)
    (hwft : t.WellFormed) (a1 a2 : List Point) (hne : a1 ≠ [])
    (hlen : a1.length = a2.length) :
    VerifyRound2Bundle cores a1 a2 t.PerformRound1.PublicCommitment
      t.PublicKey (round2Bundle t a1 a2) = .ok () := by
  have hplen : (round2Bundle t a1 a2).RemaskingProofs.length = a1.length := by
    simp [round2Bundle, List.length_zip, hlen]
  have hne0 : a1.length ≠ 0 := by
    simpa [List.length_eq_zero] using hne
  unfold VerifyRound2Bundle
  rw [if_neg (by omega)]
  unfold ForEach
  rw [if_neg (by omega)]
  apply forEachLoop_ok
  intro k hk item
  simp only [Nat.zero_add]
  exact verifySingleRound2Proof_ok t hwft a1 a2 hlen k (by omega)

/-- The verifier's Round-2 walk accepts the honest bundle history. -/
theorem verifyRound2Walk_ok (cores : Nat) (fullTs : List Tallier)
    (fullR1 : List Round1Bundle) :
    ∀ (ts : List Tallier) (idx : Nat) (a1 a2 : List Point),
      (∀ t ∈ ts, t.WellFormed) →
      fullTs.drop idx = ts →
      fullR1.drop idx = ts.map Tallier.PerformRound1 →
      a1 ≠ [] → a1.length = a2.length →
      verifyRound2Walk cores fullTs fullR1 idx a1 a2
        (round2ChainBundles ts a1 a2) = .ok () := by
  intro ts
  induction ts with
  | nil => intro idx a1 a2 _ _ _ _ _; rfl
  | cons t rest ih =>
      intro idx a1 a2 hwf hts hr1 hne hlen
      have hr1get : fullR1.get? idx = some t.PerformRound1 := by
        have h0 : (fullR1.drop idx).get? 0 = fullR1.get? (idx + 0) :=
          List.get?_drop fullR1 idx 0
        rw [hr1] at h0
        simpa using h0.symm
      have htsget : fullTs.get? idx = some t := by
        have h0 : (fullTs.drop idx).get? 0 = fullTs.get? (idx + 0) :=
          List.get?_drop fullTs idx 0
        rw [hts] at h0
        simpa using h0.symm
      have hblen := round2Bundle_len t a1 a2 hlen
      have hbne : (round2Bundle t a1 a2).UpdatedC1s ≠ [] := by
        rw [← List.length_pos_iff_ne_nil, hblen.1, List.length_pos_iff_ne_nil]
        exact hne
      have hdropTs : fullTs.drop (idx + 1) = rest := by
        have : (fullTs.drop idx).drop 1 = fullTs.drop (idx + 1) := by
          rw [List.drop_drop]
        rw [← this, hts]
        rfl
      have hdropR1 : fullR1.drop (idx + 1) = rest.map Tallier.PerformRound1 := by
        have : (fullR1.drop idx).drop 1 = fullR1.drop (idx + 1) := by
          rw [List.drop_drop]
        rw [← this, hr1]
        rfl
      simp only [round2ChainBundles, verifyRound2Walk, hr1get]
      rw [if_neg (by simp [Tallier.PerformRound1, round2Bundle])]
      simp only [htsget]
      rw [verifyRound2Bundle_ok cores t (hwf t (by simp)) a1 a2 hne hlen]
      simp only [exceptBind_ok]
      exact ih (idx + 1) (round2Bundle t a1 a2).UpdatedC1s
        (round2Bundle t a1 a2).UpdatedC2s
        (fun u hu => hwf u (by simp [hu])) hdropTs hdropR1 hbne
        (hblen.1.trans hblen.2.symm)

/-- C4 (DDT verifier completeness): whenever GenerateDeterministicTags
succeeds on a non-empty batch with well-formed talliers,
VerifyDeterministicTagProof accepts the returned transcript on the same
initial ciphertexts and talliers. -/
theorem ddt_verifier_completeness :
    ∀ (cores : Nat) (c1s c2s : List Point) (ts : List Tallier),
      (∀ t ∈ ts, t.WellFormed) →
      c1s ≠ [] →
      c1s.length = c2s.length →
      ∃ tags pf,
        GenerateDeterministicTags cores c1s c2s ts = .ok (tags, pf) ∧
        VerifyDeterministicTagProof cores c1s c2s ts pf = .ok () := by
  intro cores c1s c2s ts hwf hne hlen
  have hlen0 : ¬c1s.length = 0 := by
    simpa [List.length_eq_zero] using hne
  have hr1len : (performRound1Chain c2s ts).1.length = c2s.length := by
    rw [performRound1Chain_fst]
    simp
  have hchain := performRound2Chain_ok cores ts c1s (performRound1Chain c2s ts).1
    hne (by rw [hr1len, hlen])
  refine ⟨round2ChainC2s ts c1s (performRound1Chain c2s ts).1,
    ⟨(performRound1Chain c2s ts).2, round2ChainBundles ts c1s
      (performRound1Chain c2s ts).1⟩, ?_, ?_⟩
  · unfold GenerateDeterministicTags
    rw [if_neg hlen0]
    simp only [hchain, exceptBind_ok]
  · unfold VerifyDeterministicTagProof
    rw [performRound1Chain_snd]
    rw [verifyRound1Bundles_ok]
    simp only [exceptBind_ok]
    have hreplay : (ts.map Tallier.PerformRound1).foldl
        (fun cur b => round1Step b.PublicCommitment cur) c2s =
        (performRound1Chain c2s ts).1 := by
      rw [round1Replay_eq, performRound1Chain_fst]
      congr 1
      funext c2
      congr 1
      simp only [List.map_map, sumCommitments]
      rfl
    rw [hreplay]
    exact verifyRound2Walk_ok cores ts (ts.map Tallier.PerformRound1) ts 0
      c1s (performRound1Chain c2s ts).1 hwf (List.drop_zero ts)
      (List.drop_zero _) hne (by rw [hr1len, hlen])

/-- C4 witness: one tallier, batch of one ciphertext. -/
theorem ddt_verifier_completeness_witness :
    ∃ tags pf,
      GenerateDeterministicTags 0 [4] [13] [NewTallier 1 2 3] =
        .ok (tags, pf) ∧
      VerifyDeterministicTagProof 0 [4] [13] [NewTallier 1 2 3] pf = .ok () :=
  ddt_verifier_completeness 0 [4] [13] [NewTallier 1 2 3] (by decide)
    (by decide) (by decide)

/-- Any link index recorded in an event tail starting at member `i ≥ 1`
is below `i + rem - 1`. -/
theorem tailEvents_verifiedLink_lt :
    ∀ (rem i j : Nat), 1 ≤ i →
      ShuffleEvent.verifiedLink j ∈ tailEvents i rem → j + 1 < i + rem := by
  intro rem
  induction rem with
  | zero => intro i j _ h; simp [tailEvents] at h
  | succ rem ih =>
      intro i j hi h
      simp only [tailEvents, List.mem_cons] at h
      rcases h with h | h | h
      · cases h
        omega
      · cases h
      · have := ih (i + 1) j (by omega) h
        omega

/-- With an accepting verifier, the earlier-variant chain loop from
member `i ≥ 1` appends one shuffle result per remaining member and
interleaves a link verification immediately before each shuffle. -/
theorem singleShuffleLoop_trueVerify
    (op : Nat → List Point → List Point → SingleShuffleResult) :
    ∀ (rem i : Nat) (c1 c2 : List Point) (chain : List SingleShuffleResult)
      (evs : List ShuffleEvent), 1 ≤ i → chain ≠ [] →
      ∃ extra, singleShuffleLoop op (fun _ _ _ => true) i rem c1 c2 chain evs =
        (.ok (chain ++ extra), evs ++ tailEvents i rem) := by
  intro rem
  induction rem with
  | zero =>
      intro i c1 c2 chain evs _ _
      exact ⟨[], by simp [singleShuffleLoop, tailEvents]⟩
  | succ rem ih =>
      intro i c1 c2 chain evs hi hchain
      obtain ⟨prev, hprev⟩ : ∃ prev, chain.getLast? = some prev := by
        cases hl : chain.getLast? with
        | none => exact absurd (List.getLast?_eq_none.mp hl) hchain
        | some prev => exact ⟨prev, rfl⟩
      obtain ⟨extra, hextra⟩ := ih (i + 1) prev.ShuffledC1s prev.ShuffledC2s
        (chain ++ [op i prev.ShuffledC1s prev.ShuffledC2s])
        (evs ++ [.verifiedLink (i - 1), .shuffled i]) (by omega) (by simp)
      refine ⟨op i prev.ShuffledC1s prev.ShuffledC2s :: extra, ?_⟩
      simp only [singleShuffleLoop, if_neg (by omega : ¬i = 0), hprev,
        if_pos rfl]
      rw [hextra]
      simp [tailEvents]

/-- One verified-link-then-shuffle step of the Neff chain loop. -/
theorem neffShuffleLoop_step (n : Nat)
    (op : Nat → List Point → List Point → SingleShuffleResult)
    (v : List Point → List Point → SingleShuffleResult → Bool)
    (i rem : Nat) (c1 c2 : List Point) (chain : List SingleShuffleResult)
    (evs : List ShuffleEvent) (prev : SingleShuffleResult)
    (hi : ¬i = 0) (hprev : chain.getLast? = some prev)
    (hv : v c1 c2 prev = true) (hne : ¬i = n) (hlt : ¬n ≤ i) :
    neffShuffleLoop n op v i (rem + 1) c1 c2 chain evs =
      neffShuffleLoop n op v (i + 1) rem prev.ShuffledC1s prev.ShuffledC2s
        (chain ++ [op i prev.ShuffledC1s prev.ShuffledC2s])
        (evs ++ [.verifiedLink (i - 1), .shuffled i]) := by
  conv_lhs => rw [neffShuffleLoop]
  simp only [if_neg hi, hprev, hv, if_true, if_neg hne, if_neg hlt]

/-- With an accepting verifier, the Neff chain loop from member `i ≥ 1`
behaves like the earlier variant and then verifies the final link. -/
theorem neffShuffleLoop_trueVerify (n : Nat)
    (op : Nat → List Point → List Point → SingleShuffleResult) :
    ∀ (rem i : Nat) (c1 c2 : List Point) (chain : List SingleShuffleResult)
      (evs : List ShuffleEvent), 1 ≤ i → chain ≠ [] → i + rem = n →
      ∃ chain', neffShuffleLoop n op (fun _ _ _ => true) i (rem + 1) c1 c2 chain evs =
        (.ok chain', evs ++ tailEvents i rem ++ [.verifiedLink (n - 1)]) := by
  intro rem
  induction rem with
  | zero =>
      intro i c1 c2 chain evs hi hchain hin
      obtain ⟨prev, hprev⟩ : ∃ prev, chain.getLast? = some prev := by
        cases hl : chain.getLast? with
        | none => exact absurd (List.getLast?_eq_none.mp hl) hchain
        | some prev => exact ⟨prev, rfl⟩
      refine ⟨chain, ?_⟩
      simp only [neffShuffleLoop, if_neg (by omega : ¬i = 0), hprev,
        if_pos rfl, if_pos (by omega : i = n)]
      simp only [tailEvents, List.append_nil]
      have hn : i - 1 = n - 1 := by omega
      rw [hn]
      simp
  | succ rem ih =>
      intro i c1 c2 chain evs hi hchain hin
      obtain ⟨prev, hprev⟩ : ∃ prev, chain.getLast? = some prev := by
        cases hl : chain.getLast? with
        | none => exact absurd (List.getLast?_eq_none.mp hl) hchain
        | some prev => exact ⟨prev, rfl⟩
      obtain ⟨chain', hchain'⟩ := ih (i + 1) prev.ShuffledC1s prev.ShuffledC2s
        (chain ++ [op i prev.ShuffledC1s prev.ShuffledC2s])
        (evs ++ [.verifiedLink (i - 1), .shuffled i]) (by omega) (by simp)
        (by omega)
      refine ⟨chain', ?_⟩
      rw [neffShuffleLoop_step n op _ i (rem + 1) c1 c2 chain evs prev
        (by omega) hprev rfl (by omega) (by omega)]
      rw [hchain']
      simp [tailEvents]

/-- First iteration of the earlier-variant chain loop: member 0
shuffles the original input without verifying anything. -/
theorem singleShuffleLoop_start
    (op : Nat → List Point → List Point → SingleShuffleResult)
    (v : List Point → List Point → SingleShuffleResult → Bool)
    (rem : Nat) (c1 c2 : List Point) (evs : List ShuffleEvent) :
    singleShuffleLoop op v 0 (rem + 1) c1 c2 [] evs =
      singleShuffleLoop op v 1 rem c1 c2 [op 0 c1 c2]
        (evs ++ [.shuffled 0]) := by
  conv_lhs => rw [singleShuffleLoop]
  simp

/-- First iteration of the Neff chain loop: with at least one member,
member 0 shuffles the original input without verifying anything. -/
theorem neffShuffleLoop_start (n : Nat)
    (op : Nat → List Point → List Point → SingleShuffleResult)
    (v : List Point → List Point → SingleShuffleResult → Bool)
    (rem : Nat) (c1 c2 : List Point) (evs : List ShuffleEvent)
    (hn : ¬n ≤ 0) :
    neffShuffleLoop n op v 0 (rem + 1) c1 c2 [] evs =
      neffShuffleLoop n op v 1 rem c1 c2 [op 0 c1 c2]
        (evs ++ [.shuffled 0]) := by
  conv_lhs => rw [neffShuffleLoop]
  simp [hn]

/-- C5 counterexample: one tallier, an always-rejecting verifier.  The
earlier-variant chain returns success with the trace [shuffled 0]: the
single link of the chain is never verified (no verification event at
all), even though every verification would fail — contradicting both
"every link, including the last member's proof, has been verified" and
"any failed link makes the whole operation return an error". -/
theorem shuffle_chain_counterexample :
    (ShuffleElGamalCiphertexts (fun _ c1 c2 => ⟨c1, c2, 0⟩)
      (fun _ _ _ => false) 1 [1] [2]).1 = .ok [⟨[1], [2], 0⟩] ∧
    (ShuffleElGamalCiphertexts (fun _ c1 c2 => ⟨c1, c2, 0⟩)
      (fun _ _ _ => false) 1 [1] [2]).2 = [.shuffled 0] ∧
    ShuffleEvent.verifiedLink 0 ∉
      (ShuffleElGamalCiphertexts (fun _ c1 c2 => ⟨c1, c2, 0⟩)
        (fun _ _ _ => false) 1 [1] [2]).2 := by
  refine ⟨rfl, rfl, ?_⟩
  decide

/-- C5 amended: with an accepting verifier, member 0 shuffles the
original list and each member i > 0 verifies link i-1 immediately before
shuffling member i-1's output; in ShuffleElGamalCiphertexts the run ends
right after the last shuffle and the last link is never verified inside
the call, while NeffShuffle.Shuffle additionally verifies the last link
before returning; with a rejecting verifier both chains abort with the
verification error as soon as a link is checked. -/
theorem shuffle_chain_order_coverage_amended :
    ∀ (op : Nat → List Point → List Point → SingleShuffleResult)
      (c1s c2s : List Point) (m : Nat),
      (∃ chain,
        ShuffleElGamalCiphertexts op (fun _ _ _ => true) (m + 1) c1s c2s =
          (.ok chain, .shuffled 0 :: tailEvents 1 m) ∧
        chain.head? = some (op 0 c1s c2s)) ∧
      ShuffleEvent.verifiedLink m ∉
        (ShuffleElGamalCiphertexts op (fun _ _ _ => true) (m + 1) c1s c2s).2 ∧
      (∃ chain',
        NeffShuffleChain op (fun _ _ _ => true) (m + 1) c1s c2s =
          (.ok chain', .shuffled 0 :: (tailEvents 1 m ++ [.verifiedLink m]))) ∧
      (ShuffleElGamalCiphertexts op (fun _ _ _ => false) (m + 2) c1s c2s).1 =
        .error "failed to verify previous shuffle" ∧
      (NeffShuffleChain op (fun _ _ _ => false) (m + 1) c1s c2s).1 =
        .error "failed to verify previous shuffle" := by
  intro op c1s c2s m
  obtain ⟨extra, hspec⟩ := singleShuffleLoop_trueVerify op m 1 c1s c2s
    [op 0 c1s c2s] [.shuffled 0] (by omega) (by simp)
  have hmain : ShuffleElGamalCiphertexts op (fun _ _ _ => true) (m + 1) c1s c2s =
      (.ok (op 0 c1s c2s :: extra), .shuffled 0 :: tailEvents 1 m) := by
    unfold ShuffleElGamalCiphertexts
    rw [singleShuffleLoop_start op _ m c1s c2s []]
    simp only [List.nil_append]
    rw [hspec]
    simp
  refine ⟨⟨_, hmain, by simp⟩, ?_, ?_, ?_, ?_⟩
  · rw [hmain]
    intro hmem
    simp only [List.mem_cons] at hmem
    rcases hmem with h | h
    · cases h
    · have := tailEvents_verifiedLink_lt m 1 m (by omega) h
      omega
  · obtain ⟨chain', hchain'⟩ := neffShuffleLoop_trueVerify (m + 1) op m 1
      c1s c2s [op 0 c1s c2s] [.shuffled 0] (by omega) (by simp) (by omega)
    refine ⟨chain', ?_⟩
    unfold NeffShuffleChain
    rw [neffShuffleLoop_start (m + 1) op _ (m + 1) c1s c2s []
      (by omega)]
    simp only [List.nil_append]
    rw [hchain']
    simp
  · unfold ShuffleElGamalCiphertexts
    rw [show m + 2 = (m + 1) + 1 from rfl]
    rw [singleShuffleLoop_start op _ (m + 1) c1s c2s []]
    conv_lhs => rw [singleShuffleLoop]
    simp
  · unfold NeffShuffleChain
    rw [neffShuffleLoop_start (m + 1) op _ (m + 1) c1s c2s [] (by omega)]
    conv_lhs => rw [neffShuffleLoop]
    simp

/-- C5 amended, witness: with a rejecting verifier both chain variants
abort with the verification error (two members for the earlier variant,
one for the Neff variant). -/
theorem shuffle_chain_order_coverage_amended_witness :
    (ShuffleElGamalCiphertexts (fun _ c1 c2 => ⟨c1, c2, 0⟩)
      (fun _ _ _ => false) 2 [1] [2]).1 =
        .error "failed to verify previous shuffle" ∧
    (NeffShuffleChain (fun _ c1 c2 => ⟨c1, c2, 0⟩)
      (fun _ _ _ => false) 1 [1] [2]).1 =
        .error "failed to verify previous shuffle" :=
  ⟨(shuffle_chain_order_coverage_amended (fun _ c1 c2 => ⟨c1, c2, 0⟩)
      [1] [2] 0).2.2.2.1,
    (shuffle_chain_order_coverage_amended (fun _ c1 c2 => ⟨c1, c2, 0⟩)
      [1] [2] 0).2.2.2.2⟩

/-- Reading through the optional indexing operator. -/
theorem store_rd_eq (σ : Store) (r : Ref) : σ.rd r = (σ[r]?).getD 0 := by
  simp [Store.rd, List.getD_eq_getElem?_getD]

/-- Store extension is reflexive. -/
theorem storeExtends_refl (σ : Store) : StoreExtends σ σ :=
  ⟨le_refl _, fun _ _ => rfl⟩

/-- Store extension is transitive. -/
theorem storeExtends_trans {σ1 σ2 σ3 : Store} (h1 : StoreExtends σ1 σ2)
    (h2 : StoreExtends σ2 σ3) : StoreExtends σ1 σ3 :=
  ⟨le_trans h1.1 h2.1,
    fun r hr => (h2.2 r (lt_of_lt_of_le hr h1.1)).trans (h1.2 r hr)⟩

/-- Allocating a fresh cell extends the store. -/
theorem storeExtends_alloc (σ : Store) (v : Point) :
    StoreExtends σ (σ.alloc v).1 := by
  constructor
  · simp [Store.alloc]
  · intro r hr
    rw [store_rd_eq, store_rd_eq]
    simp [Store.alloc, List.getElem?_append, hr]

/-- Writing a cell past the protected region preserves it. -/
theorem storeExtends_wr {σ0 σ : Store} (h : StoreExtends σ0 σ) (r : Ref)
    (v : Point) (hr : σ0.length ≤ r) : StoreExtends σ0 (σ.wr r v) := by
  constructor
  · simp [Store.wr, h.1]
  · intro r0 hr0
    have hlt : r0 < r := lt_of_lt_of_le hr0 hr
    have hne : r ≠ r0 := (Nat.ne_of_lt hlt).symm
    rw [store_rd_eq, ← h.2 r0 hr0, store_rd_eq]
    simp [Store.wr, List.getElem?_set_ne hne]

/-- C9 support: extractBallotSequences only allocates copy cells. -/
theorem extractBallotSequencesH_frame :
    ∀ (votes : List VotingEntryRefs) (σ : Store),
      StoreExtends σ (extractBallotSequencesH σ votes).1 := by
  intro votes
  induction votes with
  | nil => intro σ; exact storeExtends_refl σ
  | cons v rest ih =>
      intro σ
      exact storeExtends_trans (storeExtends_alloc _ _)
        (storeExtends_trans (storeExtends_alloc _ _)
          (storeExtends_trans (storeExtends_alloc _ _)
            (storeExtends_trans (storeExtends_alloc _ _) (ih _))))

/-- C9 support: the share loop of MultiKeyDecryptWithProof only
allocates fresh shared-secret and plaintext cells. -/
theorem multiKeyDecryptLoopH_frame :
    ∀ (shares : List DKGShare) (σ : Store) (c1 cur : Ref),
      StoreExtends σ (multiKeyDecryptLoopH σ c1 cur shares).1 := by
  intro shares
  induction shares with
  | nil => intro σ c1 cur; exact storeExtends_refl σ
  | cons s rest ih =>
      intro σ c1 cur
      exact storeExtends_trans (storeExtends_alloc _ _)
        (storeExtends_trans (storeExtends_alloc _ _) (ih _ _ _))

/-- The copy loop extends the store and returns only fresh references. -/
theorem copyRefsH_spec :
    ∀ (refs : List Ref) (σ : Store),
      StoreExtends σ (copyRefsH σ refs).1 ∧
      ∀ r ∈ (copyRefsH σ refs).2, σ.length ≤ r := by
  intro refs
  induction refs with
  | nil => intro σ; exact ⟨storeExtends_refl σ, by simp [copyRefsH]⟩
  | cons r rest ih =>
      intro σ
      obtain ⟨hext, hfresh⟩ := ih (σ.alloc (σ.rd r)).1
      constructor
      · exact storeExtends_trans (storeExtends_alloc _ _) hext
      · intro r0 hr0
        simp only [copyRefsH, List.mem_cons] at hr0
        rcases hr0 with hr0 | hr0
        · subst hr0
          simp [Store.alloc]
        · have := hfresh r0 hr0
          simp only [Store.alloc, List.length_append, List.length_cons,
            List.length_nil] at this
          omega

/-- One blinding pass mutates only the given (fresh) cells. -/
theorem addCommitmentH_frame (σ0 : Store) (c : Point) :
    ∀ (refs : List Ref) (σ : Store), StoreExtends σ0 σ →
      (∀ r ∈ refs, σ0.length ≤ r) →
      StoreExtends σ0 (addCommitmentH c σ refs) := by
  intro refs
  induction refs with
  | nil => intro σ hσ _; exact hσ
  | cons r rest ih =>
      intro σ hσ hrefs
      exact ih _ (storeExtends_wr hσ r _ (hrefs r (by simp)))
        (fun r0 hr0 => hrefs r0 (by simp [hr0]))

/-- C9: the ledger-reading tally operations leave every pre-existing
point cell untouched: extractBallotSequences allocates four copy cells
per entry, MultiKeyDecryptWithProof works on a fresh struct and fresh
cells, and the Round-1 chain copies every C2 cell once and mutates only
the copies. -/
theorem tally_ledger_frame :
    ∀ (σ : Store) (votes : List VotingEntryRefs) (ct : ElGamalCiphertextRef)
      (shares : List DKGShare) (c2refs : List Ref) (commitments : List Point),
      StoreExtends σ (extractBallotSequencesH σ votes).1 ∧
      StoreExtends σ (multiKeyDecryptWithProofH σ ct shares).1 ∧
      StoreExtends σ (performRound1ChainH σ c2refs commitments).1 := by
  intro σ votes ct shares c2refs commitments
  refine ⟨extractBallotSequencesH_frame votes σ,
    multiKeyDecryptLoopH_frame shares σ ct.C1 ct.C2, ?_⟩
  unfold performRound1ChainH
  obtain ⟨hcopy, hfresh⟩ := copyRefsH_spec c2refs σ
  have hfold : ∀ (cs : List Point) (σ1 : Store), StoreExtends σ σ1 →
      StoreExtends σ (cs.foldl (fun σ2 c => addCommitmentH c σ2 (copyRefsH σ c2refs).2) σ1) := by
    intro cs
    induction cs with
    | nil => intro σ1 h; exact h
    | cons c rest ih =>
        intro σ1 h
        exact ih _ (addCommitmentH_frame σ c (copyRefsH σ c2refs).2 σ1 h hfresh)
  exact hfold commitments _ hcopy

end Votegral
